import Mathlib

/-!
Verification of the LSB steganography core (`LSBSystem` in `demo.py`):
`text_to_bits` / `bits_to_text` (the bit codec), `encode` (embedding),
`decode` (extraction) and `calculate_psnr` (quality metric).

Texts are modelled by their UTF-8 byte sequences (`List ℕ`, each byte
`< 256`); an image is its flattened row-major channel-interleaved byte
sequence together with its dimensions.  Python big integers are `ℕ`.
-/

set_option maxRecDepth 4000000

namespace Steg

/-- An RGB image: `width × height` pixels, 3 channels, flattened to a byte
list in row-major channel-interleaved order (the result of
`np.array(img).reshape(-1)`). -/
structure Img where
  width : ℕ
  height : ℕ
  data : List ℕ
deriving DecidableEq, Inhabited

/-- A decoded image file: positive dimensions, flat length `w*h*3`, 8-bit
channel values. -/
def Img.wf (img : Img) : Prop :=
  0 < img.width ∧ 0 < img.height ∧
    img.data.length = img.width * img.height * 3 ∧ ∀ d ∈ img.data, d < 256

instance (img : Img) : Decidable img.wf := by
  unfold Img.wf
  infer_instance

/-- `max_capacity = total_pixels * 3` from `encode`: one bit per channel
byte. -/
def capacity (img : Img) : ℕ := img.width * img.height * 3

/-- `self.header_len = 32`: the first 32 LSBs store the message bit length. -/
def header_len : ℕ := 32

/-- Little-endian base-`b` digits of `n` with no trailing zero digit,
computed with explicit fuel (the fuel argument makes the recursion
structural; `digitsRevAux b n n` is total for `b ≥ 2` since `n` needs at
most `n` digits). -/
def digitsRevAux (b : ℕ) : ℕ → ℕ → List ℕ
  | _, 0 => []
  | 0, _ + 1 => []
  | f + 1, n + 1 => (n + 1) % b :: digitsRevAux b f ((n + 1) / b)

/-- Python `bin(n)[2:]` as a list of bits, most significant first:
the shortest binary representation, except `bin(0)[2:] = "0"`. -/
def bin (n : ℕ) : List ℕ :=
  if n = 0 then [0] else (digitsRevAux 2 n n).reverse

/-- Python `n.to_bytes((n.bit_length() + 7) // 8, 'big')`: the shortest
big-endian byte representation (empty for 0). -/
def natToBytes (n : ℕ) : List ℕ := (digitsRevAux 256 n n).reverse

/-- Big-endian value of a digit list: `int(s, base)` for a digit string /
`int.from_bytes(bytes, 'big')` for bytes. -/
def fromDigitsBE (b : ℕ) (l : List ℕ) : ℕ :=
  l.foldl (fun a d => b * a + d) 0

/-- Python `str.zfill`: left-pad with zeros to length `L` (no-op when the
list is already at least that long). -/
def zfill (L : ℕ) (l : List ℕ) : List ℕ :=
  List.replicate (L - l.length) 0 ++ l

/-- `text_to_bits`: `bin(int.from_bytes(utf8, 'big'))[2:]` zero-filled to a
multiple of 8 bits.  The argument is the UTF-8 byte sequence of the text. -/
def text_to_bits (msg : List ℕ) : List ℕ :=
  let bits := bin (fromDigitsBE 256 msg)
  zfill (8 * ((bits.length + 7) / 8)) bits

/-- What `decode` can return: an uncaught exception (`crash`, only on an
empty pixel array), the no-stego-marker error string, the
`bits_to_text` decode-error sentinel string, or a recovered message
(given by its byte sequence before the lossy UTF-8 decode). -/
inductive DecodeOut where
  | crash : DecodeOut
  | noMark : DecodeOut
  | decodeErr : DecodeOut
  | msg : List ℕ → DecodeOut
deriving DecidableEq

/-- `bits_to_text`: `int(bits, 2)` re-packed into bytes.  `int("", 2)`
raises, and the bare `except` turns that into the sentinel string
(`decodeErr`); the `errors='ignore'` UTF-8 decode is modelled by returning
the byte sequence itself. -/
def bits_to_text (bits : List ℕ) : DecodeOut :=
  if bits = [] then .decodeErr
  else .msg (natToBytes (fromDigitsBE 2 bits))

/-- The `ValueError` raised by `encode` when the message does not fit:
it reports the needed bit count and the capacity. -/
structure EmbedErr where
  required : ℕ
  available : ℕ
deriving DecidableEq

/-- `flat[:n] = (flat[:n] & 254) | bits`: replace the LSB of the first
`bits.length` bytes, keep the rest. -/
def writeLSBs (ds bs : List ℕ) : List ℕ :=
  List.zipWith (fun d b => (d &&& 254) ||| b) ds bs ++ ds.drop bs.length

/-- `encode`: 32-bit length header plus payload bits, written into the
LSBs of the flattened image; fails when `len(full_bits) > max_capacity`. -/
def encode (img : Img) (secret : List ℕ) : Except EmbedErr Img :=
  let text_bits := text_to_bits secret
  let length_bits := zfill header_len (bin text_bits.length)
  let full_bits := length_bits ++ text_bits
  if full_bits.length > capacity img then
    .error ⟨full_bits.length, capacity img⟩
  else
    .ok ⟨img.width, img.height, writeLSBs img.data full_bits⟩

/-- `decode`: read every LSB, parse the first 32 as a big-endian length,
reject lengths larger than the remaining bit count, else slice out the
payload bits and run `bits_to_text`.  The length comparison is Python
`int` arithmetic, hence over `ℤ`. -/
def decode (img : Img) : DecodeOut :=
  let lsb_bits := img.data.map (fun d => d &&& 1)
  if lsb_bits = [] then .crash
  else
    let msg_len := fromDigitsBE 2 (lsb_bits.take header_len)
    if (msg_len : ℤ) > (lsb_bits.length : ℤ) - (header_len : ℤ) then .noMark
    else bits_to_text ((lsb_bits.drop header_len).take msg_len)

/-- What `calculate_psnr` can produce: `float('inf')` for a zero MSE, NaN
(the result of `np.mean` over an empty array propagated through the
formula) or a finite value.  A finite PSNR is `10*log10(255²/mse)`, a
strictly decreasing function of the MSE, so the finite case carries the
exact MSE instead of the float. -/
inductive PsnrVal where
  | nan : PsnrVal
  | inf : PsnrVal
  | val : ℚ → PsnrVal
deriving DecidableEq

/-- The `ValueError` numpy raises from `img1 - img2` when the two shapes
cannot be broadcast together. -/
inductive PsnrErr where
  | shapeMismatch : PsnrErr
deriving DecidableEq

/-- numpy broadcast compatibility of one axis: equal extents, or either
extent is 1. -/
def compatDim (a b : ℕ) : Bool := a = b || a = 1 || b = 1

/-- Channel sample of an image at (row `y`, column `x`, channel `c`). -/
def px (img : Img) (y x c : ℕ) : ℕ :=
  img.data.getD ((y * img.width + x) * 3 + c) 0

/-- Broadcast an index along an axis of extent `dim`: numpy repeats a
length-1 axis. -/
def bcIndex (dim i : ℕ) : ℕ := if dim = 1 then 0 else i

/-- Sample `i` (flat row-major position in the broadcast `H × W × 3`
difference array, `W` the broadcast width) of `img`. -/
def bsample (img : Img) (W i : ℕ) : ℕ :=
  px img (bcIndex img.height (i / (W * 3))) (bcIndex img.width (i / 3 % W)) (i % 3)

/-- Broadcast width of the difference array `img1 - img2`. -/
def bcW (a b : Img) : ℕ := max a.width b.width

/-- Number of samples of the broadcast difference array (`H × W × 3`). -/
def psnrCount (a b : Img) : ℕ := max a.height b.height * bcW a b * 3

/-- Sum of squared sample differences over the broadcast difference
array (exact, in `ℤ`; the float64 arithmetic of the source is exact on
these integer values). -/
def psnrSq (a b : Img) : ℤ :=
  (((List.range (psnrCount a b)).map
    (fun i => ((bsample a (bcW a b) i : ℤ) - (bsample b (bcW a b) i : ℤ)) ^ 2))).sum

/-- `mse = np.mean((img1 - img2) ** 2)`, exactly. -/
def psnrMse (a b : Img) : ℚ := (psnrSq a b : ℚ) / (psnrCount a b : ℚ)

/-- `calculate_psnr`: `ValueError` when the two shapes do not broadcast
(numpy raises from `img1 - img2`); NaN when the arrays are empty
(`np.mean([])`); `inf` when `mse == 0`; else finite, reported through its
MSE.  Both arrays come from `Image.open(...).convert('RGB')`, so both
have exactly 3 channels. -/
def calculate_psnr (a b : Img) : Except PsnrErr PsnrVal :=
  if compatDim a.height b.height && compatDim a.width b.width then
    if psnrCount a b = 0 then .ok .nan
    else if psnrMse a b = 0 then .ok .inf
    else .ok (.val (psnrMse a b))
  else .error .shapeMismatch

/-! ### Basic facts about the digit conversions -/

theorem digitsRevAux_succ (b f n : ℕ) :
    digitsRevAux b (f + 1) (n + 1) = (n + 1) % b :: digitsRevAux b f ((n + 1) / b) :=
  rfl

theorem digitsRevAux_of_pos (b f n : ℕ) (hf : 0 < f) (hn : 0 < n) :
    digitsRevAux b f n = n % b :: digitsRevAux b (f - 1) (n / b) := by
  obtain ⟨f', rfl⟩ := Nat.exists_eq_add_of_lt hf
  obtain ⟨n', rfl⟩ := Nat.exists_eq_add_of_lt hn
  simp [digitsRevAux_succ]

theorem mem_digitsRevAux_lt (b : ℕ) (hb : 0 < b) :
    ∀ f n d, d ∈ digitsRevAux b f n → d < b := by
  intro f
  induction f with
  | zero => intro n d hd; cases n <;> simp [digitsRevAux] at hd
  | succ f ih =>
    intro n d hd
    cases n with
    | zero => simp [digitsRevAux] at hd
    | succ m =>
      rw [digitsRevAux_succ] at hd
      rcases List.mem_cons.1 hd with h | h
      · exact h ▸ Nat.mod_lt _ hb
      · exact ih _ _ h

theorem fromDigitsBE_from (b : ℕ) (a : ℕ) (l : List ℕ) :
    l.foldl (fun a d => b * a + d) a = a * b ^ l.length + fromDigitsBE b l := by
  induction l generalizing a with
  | nil => simp [fromDigitsBE]
  | cons d l ih =>
    simp only [List.foldl_cons, List.length_cons, fromDigitsBE]
    rw [ih (b * a + d), ih (b * 0 + d)]
    ring

theorem fromDigitsBE_cons (b d : ℕ) (l : List ℕ) :
    fromDigitsBE b (d :: l) = d * b ^ l.length + fromDigitsBE b l := by
  simpa [fromDigitsBE] using fromDigitsBE_from b d l

theorem fromDigitsBE_concat (b d : ℕ) (l : List ℕ) :
    fromDigitsBE b (l ++ [d]) = b * fromDigitsBE b l + d := by
  simp [fromDigitsBE, List.foldl_append]

theorem fromDigitsBE_replicate_zero (b k : ℕ) :
    fromDigitsBE b (List.replicate k 0) = 0 := by
  induction k with
  | zero => rfl
  | succ k ih => simpa [List.replicate_succ, fromDigitsBE_cons] using ih

theorem fromDigitsBE_replicate_zero_append (b k : ℕ) (l : List ℕ) :
    fromDigitsBE b (List.replicate k 0 ++ l) = fromDigitsBE b l := by
  induction k with
  | zero => rfl
  | succ k ih => simpa [List.replicate_succ, fromDigitsBE, List.foldl_cons] using ih

theorem fromDigitsBE_zfill (b L : ℕ) (l : List ℕ) :
    fromDigitsBE b (zfill L l) = fromDigitsBE b l :=
  fromDigitsBE_replicate_zero_append b _ l

theorem fromDigitsBE_reverse_digitsRevAux (b : ℕ) (hb : 2 ≤ b) :
    ∀ f n, n ≤ f → fromDigitsBE b ((digitsRevAux b f n).reverse) = n := by
  intro f
  induction f with
  | zero => intro n hn; interval_cases n; rfl
  | succ f ih =>
    intro n hn
    cases n with
    | zero => rfl
    | succ m =>
      rw [digitsRevAux_succ, List.reverse_cons, fromDigitsBE_concat,
        ih ((m + 1) / b) (by
          have := Nat.div_lt_self (show 0 < m + 1 by omega) (by omega : 1 < b)
          omega)]
      exact Nat.div_add_mod (m + 1) b

theorem fromDigitsBE_bin (n : ℕ) : fromDigitsBE 2 (bin n) = n := by
  unfold bin
  split
  · simp [fromDigitsBE, *]
  · exact fromDigitsBE_reverse_digitsRevAux 2 le_rfl n n le_rfl

/-! ### Lengths and digit bounds -/

theorem zfill_length (L : ℕ) (l : List ℕ) :
    (zfill L l).length = max L l.length := by
  simp [zfill]; omega

theorem zfill_of_le (L : ℕ) (l : List ℕ) (h : L ≤ l.length) : zfill L l = l := by
  simp [zfill, Nat.sub_eq_zero_of_le h]

theorem mem_zfill (L : ℕ) (l : List ℕ) (d : ℕ) (hd : d ∈ zfill L l) :
    d = 0 ∨ d ∈ l := by
  rcases List.mem_append.1 hd with h | h
  · exact Or.inl (List.eq_of_mem_replicate h)
  · exact Or.inr h

theorem mem_bin_lt (n d : ℕ) (hd : d ∈ bin n) : d < 2 := by
  unfold bin at hd
  split at hd
  · simp at hd; omega
  · exact mem_digitsRevAux_lt 2 (by omega) n n d (List.mem_reverse.1 hd)

theorem bin_length_pos (n : ℕ) : 0 < (bin n).length := by
  unfold bin
  split
  · simp
  · rw [digitsRevAux_of_pos 2 n n (by omega) (by omega)]
    simp

theorem digitsRevAux_length_le (b : ℕ) (hb : 2 ≤ b) :
    ∀ k f n, n ≤ f → n < b ^ k → (digitsRevAux b f n).length ≤ k := by
  intro k
  induction k with
  | zero =>
    intro f n hf hk
    have : n = 0 := by simpa using hk
    subst this
    cases f <;> simp [digitsRevAux]
  | succ k ih =>
    intro f n hf hk
    cases n with
    | zero => cases f <;> simp [digitsRevAux]
    | succ m =>
      have hf' : 0 < f := by omega
      rw [digitsRevAux_of_pos b f (m + 1) hf' (by omega), List.length_cons]
      have hdiv : (m + 1) / b < b ^ k := by
        rw [Nat.div_lt_iff_lt_mul (by omega : 0 < b)]
        calc m + 1 < b ^ (k + 1) := hk
        _ = b ^ k * b := by ring
      have hle : (m + 1) / b ≤ f - 1 := by
        have := Nat.div_lt_self (show 0 < m + 1 by omega) (by omega : 1 < b)
        omega
      have := ih (f - 1) ((m + 1) / b) hle hdiv
      omega

theorem bin_length_le (n k : ℕ) (hk : 0 < k) (hn : n < 2 ^ k) :
    (bin n).length ≤ k := by
  unfold bin
  split
  · simpa
  · simpa using digitsRevAux_length_le 2 le_rfl k n n le_rfl hn

theorem le_eight_mul_ceil (x : ℕ) : x ≤ 8 * ((x + 7) / 8) := by omega

theorem text_to_bits_length (m : List ℕ) :
    (text_to_bits m).length =
      8 * (((bin (fromDigitsBE 256 m)).length + 7) / 8) := by
  unfold text_to_bits
  rw [zfill_length]
  exact Nat.max_eq_left (le_eight_mul_ceil _)

theorem text_to_bits_length_dvd (m : List ℕ) : 8 ∣ (text_to_bits m).length :=
  ⟨_, text_to_bits_length m⟩

theorem text_to_bits_length_pos (m : List ℕ) : 8 ≤ (text_to_bits m).length := by
  rw [text_to_bits_length]
  have := bin_length_pos (fromDigitsBE 256 m)
  omega

theorem mem_text_to_bits_lt (m : List ℕ) (d : ℕ) (hd : d ∈ text_to_bits m) :
    d < 2 := by
  rcases mem_zfill _ _ _ hd with h | h
  · omega
  · exact mem_bin_lt _ _ h

theorem length_bits_length (p : ℕ) (hp : p < 2 ^ 32) :
    (zfill header_len (bin p)).length = 32 := by
  rw [zfill_length]
  exact Nat.max_eq_left (bin_length_le p 32 (by omega) hp)

theorem fromDigitsBE_length_bits (p : ℕ) :
    fromDigitsBE 2 (zfill header_len (bin p)) = p := by
  rw [fromDigitsBE_zfill, fromDigitsBE_bin]

/-! ### Bit-level facts about the LSB write (`(d & 254) | b`) -/

theorem lsb_write_eq : ∀ d < 256, ∀ b < 2, (d &&& 254) ||| b = 2 * (d / 2) + b := by
  decide

theorem lsb_write_lt (d : ℕ) (hd : d < 256) (b : ℕ) (hb : b < 2) :
    (d &&& 254) ||| b < 256 := by
  rw [lsb_write_eq d hd b hb]; omega

theorem lsb_write_div (d : ℕ) (hd : d < 256) (b : ℕ) (hb : b < 2) :
    ((d &&& 254) ||| b) / 2 = d / 2 := by
  rw [lsb_write_eq d hd b hb]; omega

theorem lsb_write_land_one (d : ℕ) (hd : d < 256) (b : ℕ) (hb : b < 2) :
    ((d &&& 254) ||| b) &&& 1 = b := by
  rw [Nat.and_one_is_mod, lsb_write_eq d hd b hb]; omega

/-! ### The LSB write over lists -/

theorem writeLSBs_nil_right (ds : List ℕ) : writeLSBs ds [] = ds := by
  simp [writeLSBs]

theorem writeLSBs_nil_left (bs : List ℕ) : writeLSBs [] bs = [] := by
  simp [writeLSBs]

theorem writeLSBs_cons (d b : ℕ) (ds bs : List ℕ) :
    writeLSBs (d :: ds) (b :: bs) = ((d &&& 254) ||| b) :: writeLSBs ds bs := by
  simp [writeLSBs]

theorem writeLSBs_length (ds bs : List ℕ) :
    (writeLSBs ds bs).length = ds.length := by
  simp [writeLSBs]; omega

theorem writeLSBs_take (k : ℕ) (ds bs : List ℕ) :
    (writeLSBs ds bs).take k = writeLSBs (ds.take k) (bs.take k) := by
  induction k generalizing ds bs with
  | zero => simp [writeLSBs]
  | succ k ih =>
    cases ds with
    | nil => simp [writeLSBs_nil_left]
    | cons d ds =>
      cases bs with
      | nil => simp [writeLSBs_nil_right]
      | cons b bs => simp [writeLSBs_cons, List.take_succ_cons, ih]

theorem map_land1_writeLSBs (ds bs : List ℕ) (hd : ∀ d ∈ ds, d < 256)
    (hb : ∀ b ∈ bs, b < 2) :
    (writeLSBs ds bs).map (fun d => d &&& 1) =
      bs.take ds.length ++ (ds.drop bs.length).map (fun d => d &&& 1) := by
  induction ds generalizing bs with
  | nil => simp [writeLSBs_nil_left]
  | cons d ds ih =>
    cases bs with
    | nil => simp [writeLSBs_nil_right]
    | cons b bs =>
      rw [writeLSBs_cons, List.map_cons,
        lsb_write_land_one d (hd d (by simp)) b (hb b (by simp))]
      simp only [List.length_cons, List.take_succ_cons, List.drop_succ_cons,
        List.cons_append, List.cons.injEq, true_and]
      exact ih bs (fun x hx => hd x (by simp [hx])) (fun x hx => hb x (by simp [hx]))

theorem writeLSBs_getD_of_ge (ds bs : List ℕ) (i : ℕ) (h : bs.length ≤ i) :
    (writeLSBs ds bs).getD i 0 = ds.getD i 0 := by
  induction bs generalizing ds i with
  | nil => rw [writeLSBs_nil_right]
  | cons b bs ih =>
    cases ds with
    | nil => rw [writeLSBs_nil_left]
    | cons d ds =>
      cases i with
      | zero => simp at h
      | succ i =>
        rw [writeLSBs_cons]
        simpa using ih ds i (by simpa using h)

theorem writeLSBs_getD_of_lt (ds bs : List ℕ) (i : ℕ) (h : i < bs.length)
    (h' : i < ds.length) :
    (writeLSBs ds bs).getD i 0 = ((ds.getD i 0) &&& 254) ||| bs.getD i 0 := by
  induction i generalizing ds bs with
  | zero =>
    cases ds with
    | nil => simp at h'
    | cons d ds =>
      cases bs with
      | nil => simp at h
      | cons b bs => rw [writeLSBs_cons]; rfl
  | succ i ih =>
    cases ds with
    | nil => simp at h'
    | cons d ds =>
      cases bs with
      | nil => simp at h
      | cons b bs =>
        rw [writeLSBs_cons]
        simpa using ih ds bs (by simpa using h) (by simpa using h')

/-! ### Structure of `encode` -/

/-- `length_bits` of `encode`: `bin(len(text_bits))[2:].zfill(32)`. -/
def headerBits (msg : List ℕ) : List ℕ :=
  zfill header_len (bin (text_to_bits msg).length)

/-- `full_bits` of `encode`: header followed by payload. -/
def fullBits (msg : List ℕ) : List ℕ := headerBits msg ++ text_to_bits msg

theorem encode_def (img : Img) (msg : List ℕ) :
    encode img msg =
      if (fullBits msg).length > capacity img then
        .error ⟨(fullBits msg).length, capacity img⟩
      else .ok ⟨img.width, img.height, writeLSBs img.data (fullBits msg)⟩ :=
  rfl

theorem headerBits_length (msg : List ℕ)
    (h : (text_to_bits msg).length < 2 ^ 32) : (headerBits msg).length = 32 :=
  length_bits_length _ h

theorem mem_fullBits_lt (msg : List ℕ) (b : ℕ) (hb : b ∈ fullBits msg) : b < 2 := by
  rcases List.mem_append.1 hb with h | h
  · rcases mem_zfill _ _ _ h with h' | h'
    · omega
    · exact mem_bin_lt _ _ h'
  · exact mem_text_to_bits_lt _ _ h

theorem fullBits_length (msg : List ℕ)
    (h : (text_to_bits msg).length < 2 ^ 32) :
    (fullBits msg).length = 32 + (text_to_bits msg).length := by
  rw [fullBits, List.length_append, headerBits_length msg h]

theorem fullBits_length_ge (msg : List ℕ) : 40 ≤ (fullBits msg).length := by
  have h1 : 32 ≤ (headerBits msg).length := by
    rw [headerBits, zfill_length]; exact le_max_left _ _
  have h2 := text_to_bits_length_pos msg
  rw [fullBits, List.length_append]; omega

theorem encode_ok_iff (img : Img) (msg : List ℕ) :
    (∃ st, encode img msg = .ok st) ↔ (fullBits msg).length ≤ capacity img := by
  rw [encode_def]
  split
  · simp; omega
  · simp; omega

theorem encode_error_iff (img : Img) (msg : List ℕ) (e : EmbedErr) :
    encode img msg = .error e ↔
      capacity img < (fullBits msg).length ∧
        e = ⟨(fullBits msg).length, capacity img⟩ := by
  rw [encode_def]
  split
  · simp only [Except.error.injEq]
    constructor
    · intro h; exact ⟨by omega, h.symm⟩
    · intro h; exact h.2.symm
  · simp only [reduceCtorEq, false_iff, not_and]
    intro h; omega

theorem encode_ok_elim (img : Img) (msg : List ℕ) (st : Img)
    (h : encode img msg = .ok st) :
    st = ⟨img.width, img.height, writeLSBs img.data (fullBits msg)⟩ ∧
      (fullBits msg).length ≤ capacity img := by
  rw [encode_def] at h
  split at h
  · cases h
  · exact ⟨(Except.ok.inj h).symm, by omega⟩

/-- `l.getD i 0` is a member of `l` for an in-range index. -/
theorem getD_mem_of_lt (l : List ℕ) (i : ℕ) (h : i < l.length) :
    l.getD i 0 ∈ l := by
  rw [List.getD_eq_getElem?_getD, List.getElem?_eq_getElem h]
  exact List.getElem_mem h

theorem getD_eq_zero_of_le (l : List ℕ) (i : ℕ) (h : l.length ≤ i) :
    l.getD i 0 = 0 := by
  rw [List.getD_eq_getElem?_getD, List.getElem?_eq_none h]
  rfl

/-- High 7 bits of every byte survive a successful `encode`. -/
theorem encode_high7 (img : Img) (msg : List ℕ) (st : Img) (hwf : img.wf)
    (h : encode img msg = .ok st) (i : ℕ) :
    st.data.getD i 0 / 2 = img.data.getD i 0 / 2 := by
  obtain ⟨hst, _⟩ := encode_ok_elim img msg st h
  subst hst
  simp only
  by_cases hi : i < img.data.length
  · by_cases hib : i < (fullBits msg).length
    · rw [writeLSBs_getD_of_lt img.data (fullBits msg) i hib hi]
      exact lsb_write_div _ (hwf.2.2.2 _ (getD_mem_of_lt _ _ hi)) _
        (mem_fullBits_lt msg _ (getD_mem_of_lt _ _ hib))
    · rw [writeLSBs_getD_of_ge img.data (fullBits msg) i (by omega)]
  · rw [getD_eq_zero_of_le _ _ (by rw [writeLSBs_length]; omega),
      getD_eq_zero_of_le _ _ (by omega)]

/-- Bytes past the embedded bit stream survive a successful `encode`
byte-for-byte. -/
theorem encode_frame (img : Img) (msg : List ℕ) (st : Img)
    (h : encode img msg = .ok st) (i : ℕ) (hi : (fullBits msg).length ≤ i) :
    st.data.getD i 0 = img.data.getD i 0 := by
  obtain ⟨hst, _⟩ := encode_ok_elim img msg st h
  subst hst
  exact writeLSBs_getD_of_ge img.data (fullBits msg) i hi

/-! ### Structure of `decode` -/

/-- The message length `decode` parses out of the first 32 LSBs. -/
def msgLenOf (img : Img) : ℕ :=
  fromDigitsBE 2 ((img.data.map (fun d => d &&& 1)).take header_len)

theorem decode_eq (img : Img) :
    decode img =
      if img.data.map (fun d => d &&& 1) = [] then .crash
      else if (msgLenOf img : ℤ) >
          ((img.data.map (fun d => d &&& 1)).length : ℤ) - (header_len : ℤ) then
        .noMark
      else
        bits_to_text
          (((img.data.map (fun d => d &&& 1)).drop header_len).take (msgLenOf img)) :=
  rfl

/-- The LSB stream of a successful `encode`: the embedded bits followed by
the untouched tail's LSBs. -/
theorem lsb_map_of_encode (img : Img) (msg : List ℕ) (st : Img) (hwf : img.wf)
    (h : encode img msg = .ok st) :
    st.data.map (fun d => d &&& 1) =
      fullBits msg ++ (img.data.drop (fullBits msg).length).map (fun d => d &&& 1) := by
  obtain ⟨hst, hcap⟩ := encode_ok_elim img msg st h
  subst hst
  simp only
  rw [map_land1_writeLSBs img.data (fullBits msg) hwf.2.2.2 (mem_fullBits_lt msg),
    List.take_of_length_le (by rw [hwf.2.2.1]; exact hcap)]

/-- Extraction after a successful embed is `bits_to_text` of the payload
bits, as long as the payload bit count fits the 32-bit length header. -/
theorem decode_encode (img : Img) (msg : List ℕ) (st : Img) (hwf : img.wf)
    (hp : (text_to_bits msg).length < 2 ^ 32)
    (h : encode img msg = .ok st) :
    decode st = bits_to_text (text_to_bits msg) := by
  have h32 : header_len = 32 := rfl
  have hlsb := lsb_map_of_encode img msg st hwf h
  obtain ⟨hst, hcap⟩ := encode_ok_elim img msg st h
  have hfull := fullBits_length msg hp
  have hge := fullBits_length_ge msg
  have hhb : (headerBits msg).length = header_len :=
    (headerBits_length msg hp).trans rfl
  have hdlen : st.data.length = img.data.length := by
    rw [hst]; exact writeLSBs_length _ _
  have hcap' : (fullBits msg).length ≤ img.data.length := by
    rw [hwf.2.2.1]; exact hcap
  have htake : (st.data.map (fun d => d &&& 1)).take header_len = headerBits msg := by
    rw [hlsb, fullBits, List.append_assoc, List.take_left' hhb]
  have hmsglen : msgLenOf st = (text_to_bits msg).length := by
    rw [msgLenOf, htake, headerBits, fromDigitsBE_length_bits]
  rw [decode_eq]
  rw [if_neg (by
    rw [hlsb]
    intro hc
    have := congrArg List.length hc
    simp only [List.length_append, List.length_nil] at this
    omega)]
  rw [if_neg (by
    rw [hmsglen, List.length_map, hdlen]
    omega)]
  rw [hmsglen, hlsb, fullBits, List.append_assoc, List.drop_left' hhb,
    List.take_left' rfl]

/-! ### Structure of `calculate_psnr` -/

theorem psnrMse_self (img : Img) : psnrMse img img = 0 := by
  have hsq : psnrSq img img = 0 := by
    rw [psnrSq]
    apply List.sum_eq_zero
    intro x hx
    obtain ⟨i, _, rfl⟩ := List.mem_map.1 hx
    ring
  rw [psnrMse, hsq]
  norm_num

theorem calculate_psnr_self (img : Img) (hpos : 0 < img.width * img.height) :
    calculate_psnr img img = .ok .inf := by
  have hw : img.width ≠ 0 := by rintro h0; rw [h0] at hpos; simp at hpos
  have hh : img.height ≠ 0 := by rintro h0; rw [h0] at hpos; simp at hpos
  unfold calculate_psnr
  rw [if_pos (by simp [compatDim])]
  rw [if_neg (by simp [psnrCount, bcW, Nat.mul_eq_zero, hw, hh])]
  rw [if_pos (psnrMse_self img)]

theorem calculate_psnr_error_iff (a b : Img) :
    calculate_psnr a b = .error .shapeMismatch ↔
      ¬(compatDim a.height b.height && compatDim a.width b.width) = true := by
  unfold calculate_psnr
  split
  case isTrue h =>
    constructor
    · intro hc
      exfalso
      split at hc
      · cases hc
      · split at hc <;> cases hc
    · intro hn
      exact absurd h hn
  case isFalse h => simp [h]

/-! ### A payload of `2 ^ 32` bits: the 32-bit length header overflows -/

theorem digitsRevAux_zero (b f : ℕ) : digitsRevAux b f 0 = [] := by
  cases f <;> rfl

theorem digitsRevAux_two_pow :
    ∀ k f, k < f → digitsRevAux 2 f (2 ^ k) = List.replicate k 0 ++ [1] := by
  intro k
  induction k with
  | zero =>
    intro f hf
    rw [pow_zero, digitsRevAux_of_pos 2 f 1 (by omega) (by omega)]
    norm_num [digitsRevAux_zero]
  | succ k ih =>
    intro f hf
    have hpos : 0 < 2 ^ (k + 1) := Nat.pos_pow_of_pos _ (by omega)
    rw [digitsRevAux_of_pos 2 f (2 ^ (k + 1)) (by omega) hpos]
    have hmod : 2 ^ (k + 1) % 2 = 0 := by
      rw [pow_succ]; exact Nat.mul_mod_left _ _
    have hdiv : 2 ^ (k + 1) / 2 = 2 ^ k := by
      rw [pow_succ]; exact Nat.mul_div_cancel _ (by omega)
    rw [hmod, hdiv, ih (f - 1) (by omega)]
    simp [List.replicate_succ]

theorem bin_two_pow (k : ℕ) : bin (2 ^ k) = 1 :: List.replicate k 0 := by
  rw [bin, if_neg (Nat.pos_pow_of_pos k (by omega)).ne',
    digitsRevAux_two_pow k (2 ^ k) (Nat.lt_two_pow k)]
  simp

/-- A 2²⁹-byte message whose UTF-8 integer is `2 ^ 4294967295`, so its
payload bit stream is exactly `2 ^ 32 = 4294967296` bits long. -/
def bigMsg : List ℕ := 128 :: List.replicate 536870911 0

theorem mul_pow_shift (m : ℕ) : (128 : ℕ) * 256 ^ m = 2 ^ (7 + 8 * m) := by
  rw [show (256 : ℕ) = 2 ^ 8 by norm_num, show (128 : ℕ) = 2 ^ 7 by norm_num,
    ← pow_mul, ← pow_add]

theorem bigMsg_val : fromDigitsBE 256 bigMsg = 2 ^ 4294967295 := by
  rw [bigMsg, fromDigitsBE_cons, fromDigitsBE_replicate_zero,
    List.length_replicate, Nat.add_zero, mul_pow_shift,
    show 7 + 8 * 536870911 = 4294967295 by norm_num]

theorem text_to_bits_bigMsg :
    text_to_bits bigMsg = 1 :: List.replicate 4294967295 0 := by
  rw [text_to_bits, bigMsg_val, bin_two_pow 4294967295]
  apply zfill_of_le
  rw [List.length_cons, List.length_replicate]

theorem text_to_bits_bigMsg_length : (text_to_bits bigMsg).length = 4294967296 := by
  rw [text_to_bits_bigMsg, List.length_cons, List.length_replicate]

theorem headerBits_bigMsg : headerBits bigMsg = 1 :: List.replicate 32 0 := by
  rw [headerBits, text_to_bits_bigMsg_length,
    show (4294967296 : ℕ) = 2 ^ 32 by norm_num, bin_two_pow 32]
  apply zfill_of_le
  decide

theorem fullBits_bigMsg :
    fullBits bigMsg =
      (1 :: List.replicate 32 0) ++ (1 :: List.replicate 4294967295 0) := by
  rw [fullBits, headerBits_bigMsg, text_to_bits_bigMsg]

theorem fullBits_bigMsg_length : (fullBits bigMsg).length = 4294967329 := by
  rw [fullBits_bigMsg, List.length_append, List.length_cons,
    List.length_replicate, List.length_cons, List.length_replicate]

/-- A one-row image of 4294967331 bytes of value 1: capacity
`2 ^ 32 + 35` bits, two spare bits beyond the overflowed stream. -/
def bigImg : Img := ⟨1431655777, 1, List.replicate 4294967331 1⟩

/-- A one-row image whose capacity is exactly `32 + 2 ^ 32 = 4294967328`
bits: exactly what the spec-side arithmetic says `bigMsg` needs. -/
def bigImgExact : Img := ⟨1431655776, 1, List.replicate 4294967328 1⟩

theorem bigImg_data : bigImg.data = List.replicate 4294967331 1 := rfl

theorem bigImg_data_length : bigImg.data.length = 4294967331 := by
  rw [bigImg_data, List.length_replicate]

theorem capacity_bigImg : capacity bigImg = 4294967331 := by
  rw [capacity, show bigImg.width = 1431655777 from rfl,
    show bigImg.height = 1 from rfl]

theorem capacity_bigImgExact : capacity bigImgExact = 4294967328 := by
  rw [capacity, show bigImgExact.width = 1431655776 from rfl,
    show bigImgExact.height = 1 from rfl]

theorem encode_bigImg :
    encode bigImg bigMsg =
      .ok ⟨bigImg.width, bigImg.height, writeLSBs bigImg.data (fullBits bigMsg)⟩ := by
  rw [encode_def,
    if_neg (by rw [fullBits_bigMsg_length, capacity_bigImg]; omega)]

theorem getD_replicate (n a i : ℕ) (h : i < n) :
    (List.replicate n a).getD i 0 = a := by
  rw [List.getD_eq_getElem?_getD,
    List.getElem?_eq_getElem (by simpa using h), List.getElem_replicate]
  rfl

theorem bits_to_text_ne_noMark (bits : List ℕ) :
    bits_to_text bits ≠ DecodeOut.noMark := by
  rw [bits_to_text]; split <;> simp

theorem encode_header_lsbs (img : Img) (msg : List ℕ) (st : Img) (hwf : img.wf)
    (hp : (text_to_bits msg).length < 2 ^ 32) (h : encode img msg = .ok st) :
    (st.data.map (fun d => d &&& 1)).take header_len = headerBits msg := by
  have hlsb := lsb_map_of_encode img msg st hwf h
  have hhb : (headerBits msg).length = header_len :=
    (headerBits_length msg hp).trans rfl
  rw [hlsb, fullBits, List.append_assoc, List.take_left' hhb]

/-! ### Concrete inputs used by the claims -/

/-- A 4×4 carrier (capacity 48 bits) of mid-gray bytes. -/
def imgC1 : Img := ⟨4, 4, List.replicate 48 128⟩

/-- An all-zero 4×3 image: 36 channel bytes, every LSB 0. -/
def imgC2 : Img := ⟨4, 3, List.replicate 36 0⟩

/-- A 4×3 image of even bytes: every LSB 0, bytes nonzero. -/
def imgC2w : Img := ⟨4, 3, List.replicate 36 2⟩

def imgA3 : Img := ⟨1, 1, [0, 0, 0]⟩

def imgB3 : Img := ⟨2, 2, List.replicate 12 1⟩

def imgC4 : Img := ⟨10, 10, List.replicate 300 200⟩

/-- 34 ASCII bytes `'A'`: 272 payload bits, 304 bits with the header. -/
def msgC4 : List ℕ := List.replicate 34 65

def imgC5 : Img := ⟨4, 4, List.replicate 48 7⟩

def msgC5 : List ℕ := [65]

def stC5 : Img := (encode imgC5 msgC5).toOption.getD default

def imgC6 : Img := ⟨10, 10, List.replicate 300 3⟩

def msgC6 : List ℕ := [66]

def stC6 : Img := (encode imgC6 msgC6).toOption.getD default

def imgC7 : Img := ⟨4, 4, List.replicate 48 200⟩

def msgC7 : List ℕ := [72, 105]

def stC7 : Img := (encode imgC7 msgC7).toOption.getD default

/-- A 4×3 image of bytes 1: header LSBs all 1, so the parsed length is
huge. -/
def imgC8 : Img := ⟨4, 3, List.replicate 36 1⟩

def imgC9 : Img := ⟨1, 1, [5, 7, 9]⟩

def imgC10 : Img := ⟨4, 4, List.replicate 48 9⟩

/-- The stego byte at flat index `i`, when embedding succeeded. -/
def stegoByte (e : Except EmbedErr Img) (i : ℕ) : Option ℕ :=
  e.toOption.map (fun st => st.data.getD i 0)

/-- The 32-bit length header read back from a stego image's first 32 LSBs,
when embedding succeeded. -/
def headerReadout (e : Except EmbedErr Img) : Option ℕ :=
  e.toOption.map
    (fun st => fromDigitsBE 2 ((st.data.take 32).map (fun d => d &&& 1)))

/-! ### The claims -/

/-- C1: the round trip fails on the code.  Embedding the one-character
text U+0000 (UTF-8 bytes `[0]`) into a 4×4 carrier of capacity 48 ≥ 40
bits and extracting yields the empty message, not the original text: the
big-endian-integer bit conversion of `text_to_bits` collapses leading
zero bytes. -/
theorem C1_roundtrip_bug :
    (encode imgC1 [0]).map decode = .ok (.msg []) ∧
      DecodeOut.msg [] ≠ DecodeOut.msg [0] :=
  ⟨rfl, by decide⟩

/-- C2 as stated is false on the code: extracting from an all-zero
36-byte image parses the header as length 0, slices an empty payload bit
string, and `int("", 2)` raises, so the bare `except` returns the
decode-error sentinel — an error value, not the empty message. -/
theorem C2_counterexample :
    decode imgC2 = DecodeOut.decodeErr ∧
      DecodeOut.decodeErr ≠ DecodeOut.msg [] :=
  ⟨rfl, by decide⟩

/-- C2 (amended): on a 3-channel image with at least 32 channel bytes all
of whose LSBs are 0, `decode` parses the 32-bit header as length 0 but
returns the decode-error sentinel (the empty payload bit string fails
integer parsing), not the empty message. -/
theorem C2_amended (img : Img) (h32 : 32 ≤ img.data.length)
    (hz : ∀ d ∈ img.data, d % 2 = 0) :
    msgLenOf img = 0 ∧ decode img = DecodeOut.decodeErr := by
  have hl32 : header_len = 32 := rfl
  have hmap : img.data.map (fun d => d &&& 1) =
      List.replicate img.data.length 0 := by
    apply List.eq_replicate_iff.2
    refine ⟨by simp, ?_⟩
    intro b hb
    obtain ⟨d, hd, rfl⟩ := List.mem_map.1 hb
    rw [Nat.and_one_is_mod]
    exact hz d hd
  have hlen0 : msgLenOf img = 0 := by
    rw [msgLenOf, hmap, List.take_replicate, fromDigitsBE_replicate_zero]
  refine ⟨hlen0, ?_⟩
  rw [decode_eq]
  rw [if_neg (by
    rw [hmap]
    intro hc
    have := congrArg List.length hc
    simp only [List.length_replicate, List.length_nil] at this
    omega)]
  rw [if_neg (by rw [hlen0, List.length_map]; push_cast; omega)]
  rw [hlen0, List.take_zero]
  rfl

/-- C2 witness: a concrete 36-byte image of value-2 bytes. -/
theorem C2_witness :
    msgLenOf imgC2w = 0 ∧ decode imgC2w = DecodeOut.decodeErr :=
  C2_amended imgC2w (by decide) (by decide)

/-- C3 as stated is false on the code: a 1×1 and a 2×2 image differ in
width and height, yet numpy broadcasting makes `img1 - img2` legal, and
`calculate_psnr` returns a finite numeric result (MSE exactly 1), not a
shape error. -/
theorem C3_counterexample :
    (imgA3.width ≠ imgB3.width ∧ imgA3.height ≠ imgB3.height) ∧
      calculate_psnr imgA3 imgB3 = .ok (.val 1) := by
  have hsq : psnrSq imgA3 imgB3 = 12 := by decide
  have hcount : psnrCount imgA3 imgB3 = 12 := by decide
  have hmse : psnrMse imgA3 imgB3 = 1 := by
    rw [psnrMse, hsq, hcount]
    norm_num
  refine ⟨⟨by decide, by decide⟩, ?_⟩
  unfold calculate_psnr
  rw [if_pos (by decide), if_neg (by rw [hcount]; omega),
    if_neg (by rw [hmse]; exact one_ne_zero), hmse]

/-- C3 (amended): `calculate_psnr` fails with the shape error iff the two
shapes are not numpy-broadcastable (an axis differs and neither extent is
1); for broadcastable shapes — identical or not — it returns a value, not
an error. -/
theorem C3_broadcast_guard (a b : Img) :
    calculate_psnr a b = .error .shapeMismatch ↔
      ¬(compatDim a.height b.height && compatDim a.width b.width) = true :=
  calculate_psnr_error_iff a b

/-- C4 as stated is false on the code: for `bigMsg` (payload 2³² bits)
and a carrier whose capacity is exactly `32 + 2³² = 4294967328` bits —
required equals capacity, so the claim demands success — `encode` fails,
and its error reports `required = 4294967329`, not `32 + payload`: the
length header grew to 33 bits. -/
theorem C4_counterexample :
    32 + (text_to_bits bigMsg).length = capacity bigImgExact ∧
      encode bigImgExact bigMsg = .error ⟨4294967329, 4294967328⟩ := by
  constructor
  · rw [text_to_bits_bigMsg_length, capacity_bigImgExact]
  · rw [encode_def, fullBits_bigMsg_length, capacity_bigImgExact,
      if_pos (by omega)]

/-- C4 (amended): for payloads below 2³² bits the boundary behaves as
claimed: embedding succeeds whenever `32 + payloadBits ≤ capacity`
(equality included) and fails with `TooLarge{required := 32 + payloadBits,
available := capacity}` whenever `32 + payloadBits > capacity`; on
failure the functional `encode` returns no image at all, so nothing is
mutated. -/
theorem C4_capacity_boundary (img : Img) (msg : List ℕ)
    (hp : (text_to_bits msg).length < 2 ^ 32) :
    (32 + (text_to_bits msg).length ≤ capacity img →
        (encode img msg).isOk = true) ∧
      (capacity img < 32 + (text_to_bits msg).length →
        encode img msg =
          .error ⟨32 + (text_to_bits msg).length, capacity img⟩) := by
  have hful := fullBits_length msg hp
  constructor
  · intro hle
    rw [encode_def, if_neg (by omega)]
    rfl
  · intro hgt
    rw [encode_def, if_pos (by omega), hful]

/-- C4 witness: the spec's 10×10 scenario with an achievable payload:
34 ASCII bytes give 272 payload bits, 304 total, against capacity 300. -/
theorem C4_witness : encode imgC4 msgC4 = .error ⟨304, 300⟩ := by
  have h := (C4_capacity_boundary imgC4 msgC4 (by decide)).2 (by decide)
  have h2 : 32 + (text_to_bits msgC4).length = 304 := by decide
  have h3 : capacity imgC4 = 300 := by decide
  rw [h2, h3] at h
  exact h

/-- C5: bit isolation: a successful embed keeps the flat byte count and
every channel byte's high 7 bits (`byte / 2` is unchanged; only the LSB
may differ), including the bytes the embedding touches. -/
theorem C5_high7 (img : Img) (msg : List ℕ) (st : Img) (hwf : img.wf)
    (h : encode img msg = .ok st) :
    st.data.length = img.data.length ∧
      ∀ i, st.data.getD i 0 / 2 = img.data.getD i 0 / 2 := by
  obtain ⟨hst, _⟩ := encode_ok_elim img msg st h
  exact ⟨by rw [hst]; exact writeLSBs_length _ _,
    fun i => encode_high7 img msg st hwf h i⟩

/-- C5 witness: embedding one byte into a 4×4 image. -/
theorem C5_witness :
    stC5.data.length = imgC5.data.length ∧
      stC5.data.getD 0 0 / 2 = imgC5.data.getD 0 0 / 2 := by
  have h := C5_high7 imgC5 msgC5 stC5 (by decide) (by rfl)
  exact ⟨h.1, h.2 0⟩

/-- C6 as stated is false on the code: embedding `bigMsg` (payload 2³²
bits) succeeds on a carrier of capacity 4294967331, yet the byte at flat
index `4294967328 ≥ 32 + payloadBits` changes from 1 to 0: the
overflowed 33-bit length header shifts the whole stream one byte past the
claimed frame. -/
theorem C6_counterexample :
    32 + (text_to_bits bigMsg).length ≤ 4294967328 ∧
      stegoByte (encode bigImg bigMsg) 4294967328 = some 0 ∧
      bigImg.data.getD 4294967328 0 = 1 := by
  refine ⟨by rw [text_to_bits_bigMsg_length], ?_, ?_⟩
  · have h1 : stegoByte (encode bigImg bigMsg) 4294967328 =
        some ((writeLSBs bigImg.data (fullBits bigMsg)).getD 4294967328 0) := by
      rw [stegoByte, encode_bigImg]
      rfl
    rw [h1,
      writeLSBs_getD_of_lt _ _ _ (by rw [fullBits_bigMsg_length]; omega)
        (by rw [bigImg_data_length]; omega),
      bigImg_data, getD_replicate _ _ _ (by omega),
      fullBits_bigMsg,
      List.getD_append_right _ _ _ _
        (by rw [List.length_cons, List.length_replicate]; omega),
      show ((1 : ℕ) :: List.replicate 32 0).length = 33 by rfl,
      show (4294967328 - 33 : ℕ) = 4294967294 + 1 by rfl,
      List.getD_cons_succ,
      getD_replicate _ _ _ (by omega)]
    decide
  · rw [bigImg_data]
    exact getD_replicate _ _ _ (by omega)

/-- C6 (amended): for payloads below 2³² bits the frame property holds: a
successful embed leaves every flat byte at index `i ≥ 32 + payloadBits`
byte-for-byte unchanged, and even the touched prefix differs at most in
the LSB. -/
theorem C6_frame (img : Img) (msg : List ℕ) (st : Img) (hwf : img.wf)
    (hp : (text_to_bits msg).length < 2 ^ 32)
    (h : encode img msg = .ok st) :
    (∀ i, 32 + (text_to_bits msg).length ≤ i →
        st.data.getD i 0 = img.data.getD i 0) ∧
      ∀ i, st.data.getD i 0 / 2 = img.data.getD i 0 / 2 := by
  refine ⟨fun i hi => encode_frame img msg st h i ?_,
    fun i => encode_high7 img msg st hwf h i⟩
  rw [fullBits_length msg hp]
  exact hi

/-- C6 witness: one byte embedded into a 10×10 image; byte 45 (past the
40 embedded bits) is untouched. -/
theorem C6_witness : stC6.data.getD 45 0 = imgC6.data.getD 45 0 :=
  (C6_frame imgC6 msgC6 stC6 (by decide) (by decide) (by rfl)).1 45 (by decide)

/-- C7 as stated is false on the code: embedding `bigMsg` (payload 2³²
bits) succeeds, but the first 32 stego LSBs read back as 2³¹ = 2147483648,
not the payload bit length 2³² = 4294967296: `zfill(32)` does not truncate
the 33-bit length field, so the header is not confined to 32 bits for
oversized payloads. -/
theorem C7_counterexample :
    headerReadout (encode bigImg bigMsg) = some 2147483648 ∧
      (text_to_bits bigMsg).length = 4294967296 ∧
      (2147483648 : ℕ) ≠ 4294967296 := by
  refine ⟨?_, text_to_bits_bigMsg_length, by omega⟩
  have h1 : headerReadout (encode bigImg bigMsg) =
      some (fromDigitsBE 2
        (((writeLSBs bigImg.data (fullBits bigMsg)).take 32).map
          (fun d => d &&& 1))) := by
    rw [headerReadout, encode_bigImg]
    rfl
  rw [h1, writeLSBs_take, bigImg_data, List.take_replicate,
    show min 32 4294967331 = 32 by omega, fullBits_bigMsg,
    List.take_append_of_le_length
      (by rw [List.length_cons, List.length_replicate]; omega),
    show List.take 32 ((1 : ℕ) :: List.replicate 32 0) =
      1 :: List.replicate 31 0 by decide]
  decide

/-- C7 (amended): for payloads below 2³² bits the header is correct: after
a successful embed the first 32 LSBs of the flattened stego image, read
MSB-first as a big-endian integer, equal the payload's bit length
`len(text_to_bits msg)` (not its byte length), and the header occupies
exactly the first 32 embedded bits. -/
theorem C7_header (img : Img) (msg : List ℕ) (st : Img) (hwf : img.wf)
    (hp : (text_to_bits msg).length < 2 ^ 32) (h : encode img msg = .ok st) :
    fromDigitsBE 2 ((st.data.take 32).map (fun d => d &&& 1)) =
      (text_to_bits msg).length := by
  rw [List.map_take]
  show fromDigitsBE 2 ((st.data.map (fun d => d &&& 1)).take header_len) = _
  rw [encode_header_lsbs img msg st hwf hp h, headerBits, fromDigitsBE_length_bits]

/-- C7 witness: a two-byte message in a 4×4 carrier; the header reads 16. -/
theorem C7_witness :
    fromDigitsBE 2 ((stC7.data.take 32).map (fun d => d &&& 1)) =
      (text_to_bits msgC7).length :=
  C7_header imgC7 msgC7 stC7 (by decide) (by decide) (by rfl)

/-- C8: on a well-formed image with `totalBits = w*h*3 ≥ 32`, extraction
fails with the no-stego-marker error iff the header value parsed from the
first 32 LSBs exceeds `totalBits - 32`; otherwise it returns
`bits_to_text` of the next `msgLen` LSBs. -/
theorem C8_extract_guard (img : Img) (hwf : img.wf)
    (h32 : 32 ≤ img.width * img.height * 3) :
    (decode img = .noMark ↔
        img.width * img.height * 3 - 32 < msgLenOf img) ∧
      (msgLenOf img ≤ img.width * img.height * 3 - 32 →
        decode img =
          bits_to_text
            (((img.data.map (fun d => d &&& 1)).drop 32).take (msgLenOf img))) := by
  have hlen : img.data.length = img.width * img.height * 3 := hwf.2.2.1
  have hl32 : header_len = 32 := rfl
  have hne : ¬ img.data.map (fun d => d &&& 1) = [] := by
    intro hc
    have := congrArg List.length hc
    simp only [List.length_map, List.length_nil] at this
    omega
  rw [decode_eq, if_neg hne]
  constructor
  · constructor
    · intro hdec
      by_contra hno
      rw [if_neg (by rw [List.length_map, hlen]; push_cast; omega)] at hdec
      exact bits_to_text_ne_noMark _ hdec
    · intro hgt
      rw [if_pos (by rw [List.length_map, hlen]; push_cast; omega)]
  · intro hle
    rw [if_neg (by rw [List.length_map, hlen]; push_cast; omega), hl32]

/-- C8 witness: an image of all-1 bytes parses a huge header length and
is rejected with the no-stego-marker error. -/
theorem C8_witness : decode imgC8 = DecodeOut.noMark :=
  (C8_extract_guard imgC8 (by decide) (by decide)).1.mpr (by decide)

/-- C9: PSNR identity: for a well-formed image the MSE against itself is
exactly 0 and `calculate_psnr` returns `inf`, not a finite value and not
an error. -/
theorem C9_psnr_self (img : Img) (hwf : img.wf) :
    calculate_psnr img img = .ok .inf :=
  calculate_psnr_self img (Nat.mul_pos hwf.1 hwf.2.1)

/-- C9 witness: a 1×1 image. -/
theorem C9_witness : calculate_psnr imgC9 imgC9 = .ok .inf :=
  C9_psnr_self imgC9 (by decide)

/-- C10: the empty message encodes to exactly 8 zero bits (length 8, not
0 and not 1), and embedding it into any well-formed image of capacity at
least 40 bits and extracting returns the empty message. -/
theorem C10_empty_roundtrip (img : Img) (hwf : img.wf)
    (hcap : 40 ≤ capacity img) :
    text_to_bits [] = List.replicate 8 0 ∧
      (encode img []).map decode = .ok (.msg []) := by
  refine ⟨by decide, ?_⟩
  obtain ⟨st, hst⟩ := (encode_ok_iff img []).2 (by
    have h40 : (fullBits ([] : List ℕ)).length = 40 := by decide
    omega)
  rw [hst]
  have hdec := decode_encode img [] st hwf (by decide) hst
  simp only [Except.map]
  rw [hdec]
  rfl

/-- C10 witness: a 4×4 image (capacity 48). -/
theorem C10_witness :
    text_to_bits [] = List.replicate 8 0 ∧
      (encode imgC10 []).map decode = .ok (.msg []) :=
  C10_empty_roundtrip imgC10 (by decide) (by decide)

end Steg
